import Mathlib

/-!
# Verification of the MiniBf core (`src/bf/bf.c`)

Shallow embedding of the Brainfuck interpreter / C translator in `src/bf/bf.c`:

* `scanLoops` / `initLoops` embed `InitLoops` (the Jump Resolver): a single
  left-to-right scan carrying a stack of pending bracket-open positions,
  recording the mutual jump map for each matched pair, reporting an
  unmatched-close error during the scan, and (as the C code does, with an
  `if`, not a loop) a single unmatched-open error afterwards.
* `stepBF` / `execBF` / `runBF` embed `ExecuteSource` (the Tape Machine): a
  `for` loop over the Program Buffer whose body is the instruction `switch`
  and whose increment `source_ptr++` runs after every instruction, bracket
  jumps included. Cells are C `short` values: increment wraps in 16 signed
  bits (`wrap16`), decrement is guarded by `tape[cell] > 0` (saturating).
  The cell pointer is modelled as an unbounded integer and the tape as a
  total function: the C code never bounds-checks pointer movement, so every
  run that stays inside the declared tape is modelled exactly and runs that
  leave it are undefined behaviour in the original.
* `emitTok` / `parseToks` / `execStmts` / `runEmitted` embed `bf_to_c` (the
  Source Emitter) together with the C semantics of the program it emits:
  an `unsigned char` tape (values mod 256, decrement wraps), `*cell =
  getchar()` storing 255 at end of input, and `while (*cell) { ... }`
  structured loops.

Output streams are byte lists; `putchar` truncates its argument mod 256 and
the interpreter's final `printf("\n")` appends the byte 10. Debug dumps
(`#`, `@`) go to a separate report list, mirroring the spec's separation of
"output bytes" and "debug reports".
-/

namespace MiniBf

/-! ## Jump Resolver (`InitLoops`) -/

/-- The two kinds of unbalanced-bracket report printed by `InitLoops`:
`missingOpen i` is "couldn't find matching '[' for ']' at byte i",
`missingClose i` is "couldn't find matching ']' for '[' at byte i". -/
inductive BracketErr where
  | missingOpen (pos : Nat)
  | missingClose (pos : Nat)
deriving DecidableEq, Repr

/-- State of the `InitLoops` scan: the stack of pending `[` positions
(`stack[0..stack_ptr)`, head = most recently pushed), the partial jump map
(`loops`, `none` where the C array still holds its zero initialisation),
and the error reports in emission order. -/
structure LoopState where
  stack : List Nat
  loops : Nat → Option Nat
  errs : List BracketErr

def initState : LoopState := ⟨[], fun _ => none, []⟩

/-- One pass of the `for (source_ptr = 0; source_ptr < source_length; ...)`
loop of `InitLoops`, processing the remaining characters `cs` whose first
element sits at buffer position `i`. -/
def scanLoops : List Char → Nat → LoopState → LoopState
  | [], _, st => st
  | c :: cs, i, st =>
    if c = '[' then
      scanLoops cs (i + 1) { st with stack := i :: st.stack }
    else if c = ']' then
      match st.stack with
      | [] => scanLoops cs (i + 1) { st with errs := st.errs ++ [BracketErr.missingOpen i] }
      | p :: ps =>
        scanLoops cs (i + 1)
          { stack := ps
            loops := fun k => if k = i then some p else if k = p then some i else st.loops k
            errs := st.errs }
    else scanLoops cs (i + 1) st

/-- `InitLoops`: run the scan, then — `if (stack_ptr > 0)`, a conditional,
not a loop — report one unmatched-open error at `stack[--stack_ptr]`, the
most recently pushed remaining position. -/
def initLoops (s : List Char) : LoopState :=
  let st := scanLoops s 0 initState
  match st.stack with
  | [] => st
  | p :: _ => { st with errs := st.errs ++ [BracketErr.missingClose p] }

/-- Bracket-nesting depth check: `scanBal cs d` is the final depth after
reading `cs` starting from depth `d`, or `none` if some `]` arrives at
depth 0. -/
def scanBal : List Char → Nat → Option Nat
  | [], d => some d
  | c :: cs, d =>
    if c = '[' then scanBal cs (d + 1)
    else if c = ']' then
      match d with
      | 0 => none
      | d' + 1 => scanBal cs d'
    else scanBal cs d

/-- A Program Buffer is balanced when its bracket sequence is well nested. -/
def Balanced (s : List Char) : Prop := scanBal s 0 = some 0

instance (s : List Char) : Decidable (Balanced s) :=
  inferInstanceAs (Decidable (scanBal s 0 = some 0))

/-- A buffer position holds a bracket instruction. -/
def IsBracket (o : Option Char) : Prop := o = some '[' ∨ o = some ']'

instance (o : Option Char) : Decidable (IsBracket o) :=
  inferInstanceAs (Decidable (_ ∨ _))

/-! ## Tape Machine (`ExecuteSource`) -/

/-- 16-bit signed wraparound, the behaviour of `tape[cell]++` on the C
`short` cells. -/
def wrap16 (v : Int) : Int := (v + 32768) % 65536 - 32768

/-- Pointwise tape update. -/
def updB (f : Int → Int) (p : Int) (v : Int) : Int → Int :=
  fun q => if q = p then v else f q

/-- A debug dump: `cellDump n pos v` is the `#` report (counter, pointer,
cell value); `tapeDump n cells` is the `@` report (counter, cells 0 through
the high-water mark). -/
inductive DbgReport where
  | cellDump (n : Nat) (pos : Int) (v : Int)
  | tapeDump (n : Nat) (cells : List Int)

/-- The Tape Machine state: tape, cell pointer, high-water mark
(`max_cell_used`), program counter (`source_ptr`), the unread input, the
bytes written to the output stream, the two debug counters (starting at 1),
and the debug reports. -/
structure BFState where
  tape : Int → Int
  ptr : Int
  hwm : Int
  pc : Nat
  input : List Nat
  output : List Nat
  dbgCount : Nat
  memCount : Nat
  reports : List DbgReport

/-- The instruction `switch` body of `ExecuteSource` (everything except the
loop increment `source_ptr++`). -/
def stepInstr (c : Char) (L : Nat → Option Nat) (st : BFState) : BFState :=
  if c = '+' then
    { st with tape := updB st.tape st.ptr (wrap16 (st.tape st.ptr + 1)) }
  else if c = '-' then
    if st.tape st.ptr > 0 then
      { st with tape := updB st.tape st.ptr (st.tape st.ptr - 1) }
    else st
  else if c = '<' then { st with ptr := st.ptr - 1 }
  else if c = '>' then
    { st with ptr := st.ptr + 1
              hwm := if st.ptr + 1 > st.hwm then st.ptr + 1 else st.hwm }
  else if c = ',' then
    match st.input with
    | [] => st
    | b :: bs =>
      { st with input := bs
                tape := updB st.tape st.ptr (if (b : Int) = 10 then 10 else (b : Int)) }
  else if c = '.' then
    { st with output := st.output ++ [((st.tape st.ptr) % 256).toNat] }
  else if c = '[' then
    if st.tape st.ptr = 0 then { st with pc := (L st.pc).getD 0 } else st
  else if c = ']' then
    if st.tape st.ptr ≠ 0 then { st with pc := (L st.pc).getD 0 } else st
  else if c = '#' then
    { st with dbgCount := st.dbgCount + 1
              reports := st.reports ++ [DbgReport.cellDump st.dbgCount st.ptr (st.tape st.ptr)] }
  else if c = '@' then
    { st with memCount := st.memCount + 1
              reports := st.reports ++
                [DbgReport.tapeDump st.memCount
                  ((List.range (st.hwm.toNat + 1)).map fun i => st.tape (Int.ofNat i))] }
  else st

/-- One iteration of the `ExecuteSource` loop: the `switch` on
`source[source_ptr]` followed by the unconditional `source_ptr++`. -/
def stepBF (s : List Char) (L : Nat → Option Nat) (st : BFState) : BFState :=
  let st' :=
    match s.get? st.pc with
    | some c => stepInstr c L st
    | none => st
  { st' with pc := st'.pc + 1 }

/-- Fuelled run of the `ExecuteSource` loop: iterate `stepBF` while
`source_ptr < source_length`. -/
def execBF : Nat → List Char → (Nat → Option Nat) → BFState → Option BFState
  | 0, _, _, _ => none
  | fuel + 1, s, L, st =>
    if st.pc < s.length then execBF fuel s L (stepBF s L st) else some st

/-- A fresh Tape Machine: zeroed tape, pointer and high-water mark 0,
debug counters 1. -/
def bfInit (input : List Nat) : BFState :=
  { tape := fun _ => 0, ptr := 0, hwm := 0, pc := 0, input := input, output := []
    dbgCount := 1, memCount := 1, reports := [] }

/-- `ExecuteSource`: resolve the jump map with `InitLoops`, run the
execution loop, and on completion append the trailing `printf("\n")`
newline to the output stream. -/
def runBF (s : List Char) (input : List Nat) (fuel : Nat) : Option BFState :=
  (execBF fuel s (initLoops s).loops (bfInit input)).map
    fun st => { st with output := st.output ++ [10] }

/-! ## Source Emitter (`bf_to_c`) and the semantics of the emitted C -/

/-- The eight statement snippets `bf_to_c` can emit inside `main`. -/
inductive CTok where
  | ptrInc | ptrDec | cellInc | cellDec | put | get | wOpen | wClose
deriving DecidableEq, Repr

/-- The `switch` of `bf_to_c`: which snippet (if any) a source character
emits. Unrecognised characters emit nothing. -/
def emitTok (c : Char) : Option CTok :=
  if c = '>' then some CTok.ptrInc
  else if c = '<' then some CTok.ptrDec
  else if c = '+' then some CTok.cellInc
  else if c = '-' then some CTok.cellDec
  else if c = '.' then some CTok.put
  else if c = ',' then some CTok.get
  else if c = '[' then some CTok.wOpen
  else if c = ']' then some CTok.wClose
  else none

/-- The body of the emitted `main`, as the sequence of snippets `bf_to_c`
writes between its fixed header and footer. -/
def emitToks (s : List Char) : List CTok := s.filterMap emitTok

/-- Abstract syntax of the emitted C body: the six simple statements and
the structured `while (*cell) { ... }` loop. -/
inductive CStmt where
  | ptrInc | ptrDec | cellInc | cellDec | put | get
  | whileNZ (body : List CStmt)

/-- C's brace structure applied to the emitted snippet stream: `while ... {`
opens a block, `}` closes the innermost one. Returns `none` when the braces
of the emitted text do not balance (the emitted file would not compile). -/
def parseToks : List CTok → List (List CStmt) → Option (List CStmt)
  | [], [acc] => some acc.reverse
  | [], _ => none
  | t :: ts, stk =>
    match stk with
    | [] => none
    | acc :: outer =>
      match t with
      | CTok.wOpen => parseToks ts ([] :: acc :: outer)
      | CTok.wClose =>
        match outer with
        | [] => none
        | acc' :: outer' => parseToks ts ((CStmt.whileNZ acc.reverse :: acc') :: outer')
      | CTok.ptrInc => parseToks ts ((CStmt.ptrInc :: acc) :: outer)
      | CTok.ptrDec => parseToks ts ((CStmt.ptrDec :: acc) :: outer)
      | CTok.cellInc => parseToks ts ((CStmt.cellInc :: acc) :: outer)
      | CTok.cellDec => parseToks ts ((CStmt.cellDec :: acc) :: outer)
      | CTok.put => parseToks ts ((CStmt.put :: acc) :: outer)
      | CTok.get => parseToks ts ((CStmt.get :: acc) :: outer)

/-- Runtime state of the emitted program: the `calloc`-zeroed `unsigned
char` buffer (values in 0..255), the `cell` pointer, the unread input and
the bytes written by `putchar`. -/
structure CState where
  tape : Int → Nat
  ptr : Int
  input : List Nat
  output : List Nat

/-- Pointwise update of the emitted program's byte buffer. -/
def updC (f : Int → Nat) (p : Int) (v : Nat) : Int → Nat :=
  fun q => if q = p then v else f q

/-- Fuelled execution of a statement sequence of the emitted C program.
`++*cell` and `--*cell` wrap mod 256 (unsigned char); `*cell = getchar()`
stores the next byte, or 255 (the unsigned-char conversion of `EOF`) at end
of input; `while (*cell)` repeats its body while the pointed-to byte is
non-zero. -/
def execStmts : Nat → List CStmt → CState → Option CState
  | 0, _, _ => none
  | _ + 1, [], st => some st
  | fuel + 1, stmt :: rest, st =>
    match stmt with
    | CStmt.ptrInc => execStmts fuel rest { st with ptr := st.ptr + 1 }
    | CStmt.ptrDec => execStmts fuel rest { st with ptr := st.ptr - 1 }
    | CStmt.cellInc =>
      execStmts fuel rest { st with tape := updC st.tape st.ptr ((st.tape st.ptr + 1) % 256) }
    | CStmt.cellDec =>
      execStmts fuel rest { st with tape := updC st.tape st.ptr ((st.tape st.ptr + 255) % 256) }
    | CStmt.put => execStmts fuel rest { st with output := st.output ++ [st.tape st.ptr] }
    | CStmt.get =>
      match st.input with
      | [] => execStmts fuel rest { st with tape := updC st.tape st.ptr 255 }
      | b :: bs => execStmts fuel rest { st with tape := updC st.tape st.ptr (b % 256), input := bs }
    | CStmt.whileNZ body =>
      if st.tape st.ptr = 0 then execStmts fuel rest st
      else
        match execStmts fuel body st with
        | none => none
        | some st' => execStmts fuel (CStmt.whileNZ body :: rest) st'

/-- The emitted program, run: translate the buffer with `bf_to_c`, read the
result back as structured C, and execute it from the zeroed buffer. -/
def runEmitted (s : List Char) (input : List Nat) (fuel : Nat) : Option CState :=
  match parseToks (emitToks s) [[]] with
  | none => none
  | some prog => execStmts fuel prog { tape := fun _ => 0, ptr := 0, input := input, output := [] }

/-- The single statement a character contributes to the emitted `main`
body, when that statement is not a loop brace: exactly the non-bracket
rows of the `bf_to_c` switch. -/
def lineStmt (c : Char) : Option CStmt :=
  match emitTok c with
  | some CTok.ptrInc => some CStmt.ptrInc
  | some CTok.ptrDec => some CStmt.ptrDec
  | some CTok.cellInc => some CStmt.cellInc
  | some CTok.cellDec => some CStmt.cellDec
  | some CTok.put => some CStmt.put
  | some CTok.get => some CStmt.get
  | some CTok.wOpen => none
  | some CTok.wClose => none
  | none => none

/-- The straight-line statement list emitted for a bracket-free buffer. -/
def lineStmts (s : List Char) : List CStmt := s.filterMap lineStmt

/-- A statement of the emitted C body that is not a loop. -/
def LineStmt : CStmt → Prop
  | CStmt.whileNZ _ => False
  | _ => True

/-- The effect of one non-loop statement of the emitted C body (the
`whileNZ` row is a placeholder, used only under loop-freedom). -/
def lineStepC : CStmt → CState → CState
  | CStmt.ptrInc, st => { st with ptr := st.ptr + 1 }
  | CStmt.ptrDec, st => { st with ptr := st.ptr - 1 }
  | CStmt.cellInc, st => { st with tape := updC st.tape st.ptr ((st.tape st.ptr + 1) % 256) }
  | CStmt.cellDec, st => { st with tape := updC st.tape st.ptr ((st.tape st.ptr + 255) % 256) }
  | CStmt.put, st => { st with output := st.output ++ [st.tape st.ptr] }
  | CStmt.get, st =>
    match st.input with
    | [] => { st with tape := updC st.tape st.ptr 255 }
    | b :: bs => { st with tape := updC st.tape st.ptr (b % 256), input := bs }
  | CStmt.whileNZ _, st => st

/-- Straight-line execution of a loop-free statement list. -/
def runLine : List CStmt → CState → CState
  | [], st => st
  | m :: ms, st => runLine ms (lineStepC m st)

/-- Straight-line execution of the Tape Machine over a character list: the
instruction switch followed by the cursor increment, character by
character. Coincides with the execution loop on jump-free programs. -/
def linBF (L : Nat → Option Nat) : List Char → BFState → BFState
  | [], st => st
  | c :: cs, st => linBF L cs { stepInstr c L st with pc := (stepInstr c L st).pc + 1 }

/-- The simulation relation between a Tape Machine state and a state of
the emitted program: same pointer, same unread input, same emitted bytes,
and each `unsigned char` cell is the corresponding `short` cell mod 256. -/
def RelBC (stB : BFState) (stC : CState) : Prop :=
  stB.ptr = stC.ptr ∧ stB.input = stC.input ∧ stB.output = stC.output ∧
  ∀ p : Int, (stC.tape p : Int) = stB.tape p % 256

/-- Invariant of the `InitLoops` scan after the first `t` characters of
`s` have been processed: every jump-map entry is at a position already
scanned; the stack holds distinct already-scanned positions at which the
map is still unset; and every bracket position already scanned is either
still pending on the stack or mutually paired in the map, with an open
paired to a strictly later position. -/
def Inv (s : List Char) (t : Nat) (st : LoopState) : Prop :=
  (∀ k j, st.loops k = some j → k < t) ∧
  st.stack.Nodup ∧
  (∀ p ∈ st.stack, p < t ∧ st.loops p = none) ∧
  (∀ i, i < t → IsBracket (s.get? i) →
    i ∈ st.stack ∨
      ∃ j, st.loops i = some j ∧ st.loops j = some i ∧ (s.get? i = some '[' → i < j))

/-! ## Helper lemmas -/

/-- Dropping one more element after a drop that uncovered `c :: cs`. -/
theorem drop_succ_of_drop_cons (l : List Char) (n : Nat) (c : Char) (cs : List Char)
    (h : l.drop n = c :: cs) : l.drop (n + 1) = cs := by
  have h2 := List.drop_drop 1 n l
  rw [h] at h2
  simpa [Nat.add_comm] using h2.symm

/-- The element uncovered at the head of a drop. -/
theorem get_of_drop_cons (l : List Char) (n : Nat) (c : Char) (cs : List Char)
    (h : l.drop n = c :: cs) : l.get? n = some c := by
  have h2 := List.getElem?_drop l n 0
  rw [h] at h2
  rw [List.get?_eq_getElem?]
  simpa using h2.symm

/-- Unfolding equation of the scan at a `[`. -/
theorem scanLoops_cons_open (cs : List Char) (i : Nat) (st : LoopState) :
    scanLoops ('[' :: cs) i st
      = scanLoops cs (i + 1) { st with stack := i :: st.stack } := rfl

/-- Unfolding equation of the scan at a `]`. -/
theorem scanLoops_cons_close (cs : List Char) (i : Nat) (st : LoopState) :
    scanLoops (']' :: cs) i st
      = match st.stack with
        | [] => scanLoops cs (i + 1) { st with errs := st.errs ++ [BracketErr.missingOpen i] }
        | p :: ps =>
          scanLoops cs (i + 1)
            { stack := ps
              loops := fun k => if k = i then some p else if k = p then some i else st.loops k
              errs := st.errs } := rfl

/-- Unfolding equation of the scan at a non-bracket character. -/
theorem scanLoops_cons_other (c : Char) (cs : List Char) (i : Nat) (st : LoopState)
    (h1 : c ≠ '[') (h2 : c ≠ ']') :
    scanLoops (c :: cs) i st = scanLoops cs (i + 1) st := by
  conv_lhs => unfold scanLoops
  rw [if_neg h1, if_neg h2]

/-- Unfolding equation of the depth check at a `[`. -/
theorem scanBal_cons_open (cs : List Char) (d : Nat) :
    scanBal ('[' :: cs) d = scanBal cs (d + 1) := rfl

/-- Unfolding equation of the depth check at a `]`. -/
theorem scanBal_cons_close (cs : List Char) (d : Nat) :
    scanBal (']' :: cs) d
      = match d with
        | 0 => none
        | d' + 1 => scanBal cs d' := rfl

/-- Unfolding equation of the depth check at a non-bracket character. -/
theorem scanBal_cons_other (c : Char) (cs : List Char) (d : Nat)
    (h1 : c ≠ '[') (h2 : c ≠ ']') : scanBal (c :: cs) d = scanBal cs d := by
  conv_lhs => unfold scanBal
  rw [if_neg h1, if_neg h2]

/-- The instruction switch moves the program counter only in the two
bracket cases. -/
theorem stepInstr_pc_of_not_bracket (c : Char) (L : Nat → Option Nat) (st : BFState)
    (h1 : c ≠ '[') (h2 : c ≠ ']') : (stepInstr c L st).pc = st.pc := by
  unfold stepInstr
  split_ifs <;> first
    | rfl
    | (cases st.input <;> rfl)

/-- Every error recorded during the scan phase of `InitLoops` is an
unmatched-close (`missingOpen`) report. -/
theorem scanLoops_errs_missingOpen (cs : List Char) :
    ∀ (i : Nat) (st : LoopState), (∀ e ∈ st.errs, ∃ p, e = BracketErr.missingOpen p) →
      ∀ e ∈ (scanLoops cs i st).errs, ∃ p, e = BracketErr.missingOpen p := by
  induction cs with
  | nil => intro i st h; exact h
  | cons c cs ih =>
    intro i st h
    unfold scanLoops
    split_ifs with hc1 hc2
    · exact ih (i + 1) _ h
    · match hst : st.stack with
      | [] =>
        refine ih (i + 1) _ ?_
        intro e he
        rcases List.mem_append.1 he with he | he
        · exact h e he
        · rcases List.mem_singleton.1 he with rfl
          exact ⟨i, rfl⟩
      | p :: ps => exact ih (i + 1) _ h
    · exact ih (i + 1) _ h

/-- Unfolding equation of the instruction switch at `+`. -/
theorem stepInstr_plus (L : Nat → Option Nat) (st : BFState) :
    stepInstr '+' L st
      = { st with tape := updB st.tape st.ptr (wrap16 (st.tape st.ptr + 1)) } := rfl

/-- Unfolding equation of the instruction switch at `-`. -/
theorem stepInstr_minus (L : Nat → Option Nat) (st : BFState) :
    stepInstr '-' L st
      = if st.tape st.ptr > 0 then
          { st with tape := updB st.tape st.ptr (st.tape st.ptr - 1) }
        else st := rfl

/-- Unfolding equation of the instruction switch at `<`. -/
theorem stepInstr_left (L : Nat → Option Nat) (st : BFState) :
    stepInstr '<' L st = { st with ptr := st.ptr - 1 } := rfl

/-- Unfolding equation of the instruction switch at `>`. -/
theorem stepInstr_right (L : Nat → Option Nat) (st : BFState) :
    stepInstr '>' L st
      = { st with ptr := st.ptr + 1
                  hwm := if st.ptr + 1 > st.hwm then st.ptr + 1 else st.hwm } := rfl

/-- Unfolding equation of the instruction switch at `,`. -/
theorem stepInstr_read (L : Nat → Option Nat) (st : BFState) :
    stepInstr ',' L st
      = match st.input with
        | [] => st
        | b :: bs =>
          { st with input := bs
                    tape := updB st.tape st.ptr (if (b : Int) = 10 then 10 else (b : Int)) } := rfl

/-- Unfolding equation of the instruction switch at `.`. -/
theorem stepInstr_write (L : Nat → Option Nat) (st : BFState) :
    stepInstr '.' L st
      = { st with output := st.output ++ [((st.tape st.ptr) % 256).toNat] } := rfl

/-- Unfolding equation of the instruction switch at `[`. -/
theorem stepInstr_open (L : Nat → Option Nat) (st : BFState) :
    stepInstr '[' L st
      = if st.tape st.ptr = 0 then { st with pc := (L st.pc).getD 0 } else st := rfl

/-- Unfolding equation of the instruction switch at `]`. -/
theorem stepInstr_close (L : Nat → Option Nat) (st : BFState) :
    stepInstr ']' L st
      = if st.tape st.ptr ≠ 0 then { st with pc := (L st.pc).getD 0 } else st := rfl

/-- Unfolding equation of the instruction switch at `#`. -/
theorem stepInstr_dumpCell (L : Nat → Option Nat) (st : BFState) :
    stepInstr '#' L st
      = { st with dbgCount := st.dbgCount + 1
                  reports := st.reports
                    ++ [DbgReport.cellDump st.dbgCount st.ptr (st.tape st.ptr)] } := rfl

/-- Unfolding equation of the instruction switch at `@`. -/
theorem stepInstr_dumpTape (L : Nat → Option Nat) (st : BFState) :
    stepInstr '@' L st
      = { st with memCount := st.memCount + 1
                  reports := st.reports
                    ++ [DbgReport.tapeDump st.memCount
                        ((List.range (st.hwm.toNat + 1)).map fun i => st.tape (Int.ofNat i))] } := rfl

/-- The step of the execution loop, when the instruction at the cursor is
known. -/
theorem stepBF_eq (s : List Char) (L : Nat → Option Nat) (st : BFState) (c : Char)
    (h : s.get? st.pc = some c) :
    stepBF s L st = { stepInstr c L st with pc := (stepInstr c L st).pc + 1 } := by
  unfold stepBF
  rw [h]

/-- `wrap16` really is reduction into the signed 16-bit range: the result
is congruent mod 2^16 and lies in -32768..32767. -/
theorem wrap16_bounds (v : Int) :
    -32768 ≤ wrap16 v ∧ wrap16 v < 32768 ∧ wrap16 v ≡ v [ZMOD 65536] := by
  unfold wrap16 Int.ModEq
  omega

/-- The scan preserves `Inv` along any suffix whose brackets balance the
pending stack, and ends with an empty stack. -/
theorem scanLoops_inv (cs : List Char) :
    ∀ (s : List Char) (t : Nat) (st : LoopState),
      s.drop t = cs → Inv s t st → scanBal cs st.stack.length = some 0 →
      Inv s (t + cs.length) (scanLoops cs t st) ∧ (scanLoops cs t st).stack = [] := by
  induction cs with
  | nil =>
    intro s t st _ hInv hbal
    refine ⟨by simpa using hInv, ?_⟩
    have hlen : st.stack.length = 0 := by simpa [scanBal] using hbal
    simpa using List.length_eq_zero.1 hlen
  | cons c cs ih =>
    intro s t st hdrop hInv hbal
    have hget : s.get? t = some c := get_of_drop_cons s t c cs hdrop
    have hdrop' : s.drop (t + 1) = cs := drop_succ_of_drop_cons s t c cs hdrop
    have hlen : t + (c :: cs).length = (t + 1) + cs.length := by
      simp [List.length_cons]
      omega
    rw [hlen]
    obtain ⟨hI1, hNd, hStk, hCov⟩ := hInv
    by_cases hc1 : c = '['
    · subst hc1
      rw [scanLoops_cons_open]
      refine ih s (t + 1) _ hdrop' ⟨?_, ?_, ?_, ?_⟩ ?_
      · intro k j hk
        exact Nat.lt_succ_of_lt (hI1 k j hk)
      · refine List.nodup_cons.2 ⟨?_, hNd⟩
        intro hmem
        exact absurd (hStk t hmem).1 (lt_irrefl t)
      · intro p hp
        rcases List.mem_cons.1 hp with rfl | hp'
        · refine ⟨Nat.lt_succ_self _, ?_⟩
          cases hl : st.loops p with
          | none => rfl
          | some j => exact absurd (hI1 p j hl) (lt_irrefl p)
        · exact ⟨Nat.lt_succ_of_lt (hStk p hp').1, (hStk p hp').2⟩
      · intro i hi hbr
        rcases Nat.lt_succ_iff_lt_or_eq.1 hi with hi' | rfl
        · rcases hCov i hi' hbr with hmem | hpair
          · exact Or.inl (List.mem_cons_of_mem _ hmem)
          · exact Or.inr hpair
        · exact Or.inl (List.mem_cons_self _ _)
      · rw [scanBal_cons_open] at hbal
        simpa using hbal
    · by_cases hc2 : c = ']'
      · subst hc2
        rcases hstk : st.stack with _ | ⟨p, ps⟩
        · exfalso
          rw [scanBal_cons_close, hstk] at hbal
          simp at hbal
        · have hp_lt : p < t := (hStk p (by rw [hstk]; exact List.mem_cons_self p ps)).1
          have hp_none : st.loops p = none :=
            (hStk p (by rw [hstk]; exact List.mem_cons_self p ps)).2
          have hNd' : p ∉ ps ∧ ps.Nodup := by
            rw [hstk] at hNd
            exact List.nodup_cons.1 hNd
          have hp_ne_t : p ≠ t := Nat.ne_of_lt hp_lt
          rw [scanLoops_cons_close, hstk]
          refine ih s (t + 1) _ hdrop' ⟨?_, hNd'.2, ?_, ?_⟩ ?_
          · intro k j hk
            dsimp only at hk
            by_cases hkt : k = t
            · omega
            · rw [if_neg hkt] at hk
              by_cases hkp : k = p
              · omega
              · rw [if_neg hkp] at hk
                exact Nat.lt_succ_of_lt (hI1 k j hk)
          · intro q hq
            have hq_mem : q ∈ st.stack := by
              rw [hstk]
              exact List.mem_cons_of_mem p hq
            have hq_lt : q < t := (hStk q hq_mem).1
            refine ⟨Nat.lt_succ_of_lt hq_lt, ?_⟩
            dsimp only
            rw [if_neg (Nat.ne_of_lt hq_lt), if_neg ?_]
            · exact (hStk q hq_mem).2
            · intro hqp
              exact hNd'.1 (hqp ▸ hq)
          · intro i hi hbr
            rcases Nat.lt_succ_iff_lt_or_eq.1 hi with hi' | rfl
            · rcases hCov i hi' hbr with hmem | ⟨j, hj1, hj2, hj3⟩
              · rw [hstk] at hmem
                rcases List.mem_cons.1 hmem with rfl | hmem'
                · refine Or.inr ⟨t, ?_, ?_, fun _ => hp_lt⟩
                  · dsimp only
                    rw [if_neg hp_ne_t, if_pos rfl]
                  · dsimp only
                    rw [if_pos rfl]
                · exact Or.inl hmem'
              · have hit : i ≠ t := Nat.ne_of_lt hi'
                have hip : i ≠ p := by
                  intro hip
                  rw [hip, hp_none] at hj1
                  cases hj1
                have hjt : j ≠ t := Nat.ne_of_lt (hI1 j i hj2)
                have hjp : j ≠ p := by
                  intro hjp
                  rw [hjp, hp_none] at hj2
                  cases hj2
                refine Or.inr ⟨j, ?_, ?_, hj3⟩
                · dsimp only
                  rw [if_neg hit, if_neg hip]
                  exact hj1
                · dsimp only
                  rw [if_neg hjt, if_neg hjp]
                  exact hj2
            · refine Or.inr ⟨p, ?_, ?_, ?_⟩
              · dsimp only
                rw [if_pos rfl]
              · dsimp only
                rw [if_neg hp_ne_t, if_pos rfl]
              · intro habs
                rw [hget] at habs
                exact absurd (Option.some.inj habs) (by decide)
          · rw [scanBal_cons_close, hstk] at hbal
            simpa [List.length_cons] using hbal
      · rw [scanLoops_cons_other c cs t st hc1 hc2]
        refine ih s (t + 1) st hdrop' ⟨?_, hNd, ?_, ?_⟩ ?_
        · intro k j hk
          exact Nat.lt_succ_of_lt (hI1 k j hk)
        · intro p hp
          exact ⟨Nat.lt_succ_of_lt (hStk p hp).1, (hStk p hp).2⟩
        · intro i hi hbr
          rcases Nat.lt_succ_iff_lt_or_eq.1 hi with hi' | rfl
          · exact hCov i hi' hbr
          · exfalso
            rcases hbr with hbr | hbr
            · rw [hget] at hbr
              exact hc1 (Option.some.inj hbr)
            · rw [hget] at hbr
              exact hc2 (Option.some.inj hbr)
        · rw [scanBal_cons_other c cs _ hc1 hc2] at hbal
          exact hbal

/-! ## Claims -/

/-- C2: for every balanced Program Buffer, the Jump Resolver's map pairs
every bracket position `i` with a partner `j` such that `map i = some j`,
`map j = some i` (so `map (map i) = i`), and an open bracket's partner lies
strictly to its right. -/
theorem claim2_jump_map_involution (s : List Char) (hbal : Balanced s) (i : Nat)
    (hbr : IsBracket (s.get? i)) :
    ∃ j, (initLoops s).loops i = some j ∧ (initLoops s).loops j = some i ∧
      (s.get? i = some '[' → i < j) := by
  have h0 : Inv s 0 initState := by
    refine ⟨?_, List.nodup_nil, ?_, ?_⟩
    · intro k j hk
      exact Option.noConfusion hk
    · intro p hp
      cases hp
    · intro i hi _
      exact absurd hi (Nat.not_lt_zero i)
  have hmain := scanLoops_inv s s 0 initState (List.drop_zero s) h0 hbal
  obtain ⟨hInv, hstack⟩ := hmain
  have hIL : initLoops s = scanLoops s 0 initState := by
    simp only [initLoops]
    rw [hstack]
  have hi_len : i < s.length := by
    rcases hbr with h | h
    · exact (List.get?_eq_some.1 h).1
    · exact (List.get?_eq_some.1 h).1
  rcases hInv.2.2.2 i (by simpa using hi_len) hbr with hmem | ⟨j, hj1, hj2, hj3⟩
  · rw [hstack] at hmem
    cases hmem
  · refine ⟨j, ?_, ?_, hj3⟩
    · rw [hIL]
      exact hj1
    · rw [hIL]
      exact hj2

/-- C2 witness: for the balanced program `[]` position 0 is paired with a
strictly later partner that maps back to 0. -/
theorem claim2_witness :
    Balanced ['[', ']'] ∧
    ∃ j, (initLoops ['[', ']']).loops 0 = some j ∧ (initLoops ['[', ']']).loops j = some 0 ∧
      ((['[', ']'] : List Char).get? 0 = some '[' → 0 < j) :=
  ⟨by decide, claim2_jump_map_involution ['[', ']'] (by decide) 0 (Or.inl rfl)⟩

/-- C3: executing `-` on a cell holding 0 leaves the cell at 0 (the
`tape[cell] > 0` guard saturates instead of wrapping), while `+` always
wraps within the 16-bit signed cell width: the new value is congruent to
the old value plus one mod 2^16 and stays in -32768..32767. -/
theorem claim3_dec_saturates_inc_wraps (s : List Char) (L : Nat → Option Nat) (st : BFState) :
    (s.get? st.pc = some '-' → st.tape st.ptr = 0 → (stepBF s L st).tape st.ptr = 0) ∧
    (s.get? st.pc = some '+' →
      -32768 ≤ (stepBF s L st).tape st.ptr ∧ (stepBF s L st).tape st.ptr < 32768 ∧
      (stepBF s L st).tape st.ptr ≡ st.tape st.ptr + 1 [ZMOD 65536]) := by
  constructor
  · intro h h0
    rw [stepBF_eq s L st '-' h, stepInstr_minus, h0]
    norm_num
    exact h0
  · intro h
    rw [stepBF_eq s L st '+' h, stepInstr_plus]
    show -32768 ≤ updB st.tape st.ptr (wrap16 (st.tape st.ptr + 1)) st.ptr ∧
      updB st.tape st.ptr (wrap16 (st.tape st.ptr + 1)) st.ptr < 32768 ∧
      updB st.tape st.ptr (wrap16 (st.tape st.ptr + 1)) st.ptr ≡ st.tape st.ptr + 1 [ZMOD 65536]
    simp only [updB, if_pos rfl]
    exact wrap16_bounds _

/-- C3 witness: on a fresh machine, running `-` keeps the cell at 0 and
running `+` produces a value congruent to 1 mod 2^16. -/
theorem claim3_witness :
    (stepBF ['-'] (fun _ => none) (bfInit [])).tape 0 = 0 ∧
    ((stepBF ['+'] (fun _ => none) (bfInit [])).tape 0 ≡ 0 + 1 [ZMOD 65536]) :=
  ⟨(claim3_dec_saturates_inc_wraps ['-'] (fun _ => none) (bfInit [])).1 rfl rfl,
   ((claim3_dec_saturates_inc_wraps ['+'] (fun _ => none) (bfInit [])).2 rfl).2.2⟩

/-- C4, as stated, is false: executing `[` with a zero cell does not leave
the cursor on the matching `]` for re-evaluation on the next step. For the
program `[]` with cell 0 (jump partner of position 0 is position 1), the
next evaluated position is 2 — the loop's `source_ptr++` runs after the
jump, skipping the close — not 1 as the claim requires. -/
theorem claim4_counterexample :
    (stepBF ['[', ']'] (initLoops ['[', ']']).loops (bfInit [])).pc = 2 ∧
    (stepBF ['[', ']'] (initLoops ['[', ']']).loops (bfInit [])).pc ≠ 1 := by
  constructor
  · rfl
  · decide

/-- C4 amended: a taken `[` (zero cell) or `]` (non-zero cell) branch sets
the cursor to the jump partner and the loop increment then advances it, so
the next instruction evaluated is the one immediately after the partner
(the partner itself is skipped, which is observationally equivalent to
evaluating it, since it would fall through); in every other case —
non-bracket instructions and not-taken branches — the cursor advances by
exactly one. -/
theorem claim4_cursor_behaviour (s : List Char) (L : Nat → Option Nat) (st : BFState) :
    (s.get? st.pc = some '[' → st.tape st.ptr = 0 →
      (stepBF s L st).pc = (L st.pc).getD 0 + 1) ∧
    (s.get? st.pc = some ']' → st.tape st.ptr ≠ 0 →
      (stepBF s L st).pc = (L st.pc).getD 0 + 1) ∧
    (s.get? st.pc = some '[' → st.tape st.ptr ≠ 0 → (stepBF s L st).pc = st.pc + 1) ∧
    (s.get? st.pc = some ']' → st.tape st.ptr = 0 → (stepBF s L st).pc = st.pc + 1) ∧
    (∀ c, s.get? st.pc = some c → c ≠ '[' → c ≠ ']' → (stepBF s L st).pc = st.pc + 1) := by
  refine ⟨?_, ?_, ?_, ?_, ?_⟩
  · intro h h0
    rw [stepBF_eq s L st '[' h, stepInstr_open, if_pos h0]
  · intro h h0
    rw [stepBF_eq s L st ']' h, stepInstr_close, if_pos h0]
  · intro h h0
    rw [stepBF_eq s L st '[' h, stepInstr_open, if_neg (by simpa using h0)]
  · intro h h0
    rw [stepBF_eq s L st ']' h, stepInstr_close, if_neg (by simpa using h0)]
  · intro c h h1 h2
    rw [stepBF_eq s L st c h]
    show (stepInstr c L st).pc + 1 = st.pc + 1
    rw [stepInstr_pc_of_not_bracket c L st h1 h2]

/-- C4 witness: for `[]` on a fresh machine the taken open branch lands one
past the jump partner. -/
theorem claim4_witness :
    (stepBF ['[', ']'] (initLoops ['[', ']']).loops (bfInit [])).pc
      = (((initLoops ['[', ']']).loops 0).getD 0) + 1 :=
  (claim4_cursor_behaviour ['[', ']'] (initLoops ['[', ']']).loops (bfInit [])).1 rfl rfl

/-- C6: executing `,` at end of input leaves the tape (in particular the
current cell) unchanged, and a read unit equal to the line feed value is
stored as 10. -/
theorem claim6_read_eof_noop_lf_normalized (s : List Char) (L : Nat → Option Nat)
    (st : BFState) (h : s.get? st.pc = some ',') :
    (st.input = [] → (stepBF s L st).tape = st.tape) ∧
    (∀ bs, st.input = 10 :: bs → (stepBF s L st).tape st.ptr = 10) := by
  constructor
  · intro hin
    rw [stepBF_eq s L st ',' h, stepInstr_read, hin]
  · intro bs hin
    rw [stepBF_eq s L st ',' h, stepInstr_read, hin]
    show updB st.tape st.ptr (if ((10 : Nat) : Int) = 10 then 10 else ((10 : Nat) : Int)) st.ptr
      = 10
    norm_num [updB]

/-- C6 witness: on a fresh machine with empty input, `,` leaves the tape
unchanged; with input `[10]` it stores 10. -/
theorem claim6_witness :
    (stepBF [','] (fun _ => none) (bfInit [])).tape = (bfInit []).tape ∧
    (stepBF [','] (fun _ => none) (bfInit [10])).tape 0 = 10 :=
  ⟨(claim6_read_eof_noop_lf_normalized [','] (fun _ => none) (bfInit []) rfl).1 rfl,
   (claim6_read_eof_noop_lf_normalized [','] (fun _ => none) (bfInit [10]) rfl).2 [] rfl⟩

/-- C7: the program `+[-]` on a fresh zeroed tape halts (within fuel 10)
with the current cell back at 0. -/
theorem claim7_plus_loop_halts_at_zero :
    (runBF ['+', '[', '-', ']'] [] 10).map (fun st => st.tape st.ptr) = some 0 := by decide

/-- C8: the program `+++.` on a fresh zeroed tape writes exactly the unit 3
followed by the single trailing newline (byte 10) of the end-of-run
`printf`. -/
theorem claim8_output_three_then_newline :
    (runBF ['+', '+', '+', '.'] [] 10).map (fun st => st.output) = some [3, 10] := by decide

/-- C9: on the one-character program `[`, the Jump Resolver reports exactly
one missing-close error, at position 0. -/
theorem claim9_single_open_one_error :
    (initLoops ['[']).errs = [BracketErr.missingClose 0] := by decide

/-- C10: the `#` and `@` debug instructions leave the tape, the cell
pointer, the high-water mark, the input and the output stream unchanged;
each increments exactly its own counter by one and leaves the other
counter alone. -/
theorem claim10_debug_dump_frame (s : List Char) (L : Nat → Option Nat) (st : BFState) :
    (s.get? st.pc = some '#' →
      (stepBF s L st).tape = st.tape ∧ (stepBF s L st).ptr = st.ptr ∧
      (stepBF s L st).hwm = st.hwm ∧ (stepBF s L st).input = st.input ∧
      (stepBF s L st).output = st.output ∧
      (stepBF s L st).dbgCount = st.dbgCount + 1 ∧ (stepBF s L st).memCount = st.memCount) ∧
    (s.get? st.pc = some '@' →
      (stepBF s L st).tape = st.tape ∧ (stepBF s L st).ptr = st.ptr ∧
      (stepBF s L st).hwm = st.hwm ∧ (stepBF s L st).input = st.input ∧
      (stepBF s L st).output = st.output ∧
      (stepBF s L st).memCount = st.memCount + 1 ∧ (stepBF s L st).dbgCount = st.dbgCount) := by
  constructor
  · intro h
    rw [stepBF_eq s L st '#' h, stepInstr_dumpCell]
    exact ⟨rfl, rfl, rfl, rfl, rfl, rfl, rfl⟩
  · intro h
    rw [stepBF_eq s L st '@' h, stepInstr_dumpTape]
    exact ⟨rfl, rfl, rfl, rfl, rfl, rfl, rfl⟩

/-- C10 witness: on a fresh machine, `#` leaves the tape and pointer alone
and bumps only the `#` counter; `@` bumps only the `@` counter. -/
theorem claim10_witness :
    (stepBF ['#'] (fun _ => none) (bfInit [])).dbgCount = 2 ∧
    (stepBF ['#'] (fun _ => none) (bfInit [])).memCount = 1 ∧
    (stepBF ['#'] (fun _ => none) (bfInit [])).tape = (bfInit []).tape ∧
    (stepBF ['@'] (fun _ => none) (bfInit [])).memCount = 2 ∧
    (stepBF ['@'] (fun _ => none) (bfInit [])).dbgCount = 1 :=
  ⟨((claim10_debug_dump_frame ['#'] (fun _ => none) (bfInit [])).1 rfl).2.2.2.2.2.1,
   ((claim10_debug_dump_frame ['#'] (fun _ => none) (bfInit [])).1 rfl).2.2.2.2.2.2,
   ((claim10_debug_dump_frame ['#'] (fun _ => none) (bfInit [])).1 rfl).1,
   ((claim10_debug_dump_frame ['@'] (fun _ => none) (bfInit [])).2 rfl).2.2.2.2.2.1,
   ((claim10_debug_dump_frame ['@'] (fun _ => none) (bfInit [])).2 rfl).2.2.2.2.2.2⟩

/-- C5, as stated, is false: when the scan ends with several pending opens,
`InitLoops` does not report each of them. For `[[` the scan leaves
positions 1 and 0 pending (innermost first), yet position 0 is never
reported — the post-scan report is a single `if`, not a loop. -/
theorem claim5_counterexample :
    (scanLoops ['[', '['] 0 initState).stack = [1, 0] ∧
    BracketErr.missingClose 0 ∉ (initLoops ['[', '[']).errs := by
  constructor
  · rfl
  · decide

/-- C5 amended: when the scan finishes with a non-empty stack of pending
bracket-open positions, `InitLoops` reports exactly one unmatched-open
(missing-close) error, at the innermost (last pushed) remaining position;
all errors reported during the scan itself are of the unmatched-close
(missing-open) kind, so that one report is the only missing-close error. -/
theorem claim5_one_innermost_unmatched_open_report (s : List Char) (p : Nat) (ps : List Nat)
    (h : (scanLoops s 0 initState).stack = p :: ps) :
    (initLoops s).errs = (scanLoops s 0 initState).errs ++ [BracketErr.missingClose p] ∧
    (∀ e ∈ (scanLoops s 0 initState).errs, ∃ q, e = BracketErr.missingOpen q) := by
  constructor
  · simp only [initLoops]
    rw [h]
  · exact scanLoops_errs_missingOpen s 0 initState (by intro e he; cases he)

/-- C5 witness: for `[[` the single reported missing-close error is at
position 1, the innermost pending open. -/
theorem claim5_witness :
    (initLoops ['[', '[']).errs
      = (scanLoops ['[', '['] 0 initState).errs ++ [BracketErr.missingClose 1] ∧
    (∀ e ∈ (scanLoops ['[', '['] 0 initState).errs, ∃ q, e = BracketErr.missingOpen q) :=
  claim5_one_innermost_unmatched_open_report ['[', '['] 1 [0] rfl

/-- C1, as stated, is false: translation does not preserve semantics for
every balanced program. For the balanced program `-.` with empty input, the
Tape Machine's saturating decrement leaves the cell at 0 and the run prints
the byte 0 (before the trailing framing newline), while the emitted C
program's `--*cell` wraps the `unsigned char` cell to 255 and prints 255. -/
theorem claim1_counterexample :
    (runBF ['-', '.'] [] 10).map (fun st => st.output.dropLast)
      ≠ (runEmitted ['-', '.'] [] 10).map (fun st => st.output) := by decide

/-! ## Helper lemmas for the Source Emitter equivalence -/

/-- Unfolding equation of `execStmts` at a `get` statement. -/
theorem execStmts_get_eq (f : Nat) (rest : List CStmt) (st : CState) :
    execStmts (f + 1) (CStmt.get :: rest) st
      = match st.input with
        | [] => execStmts f rest { st with tape := updC st.tape st.ptr 255 }
        | b :: bs =>
          execStmts f rest { st with tape := updC st.tape st.ptr (b % 256), input := bs } := rfl

/-- Unfolding equation of `execStmts` at a `while` statement. -/
theorem execStmts_while_eq (f : Nat) (body rest : List CStmt) (st : CState) :
    execStmts (f + 1) (CStmt.whileNZ body :: rest) st
      = if st.tape st.ptr = 0 then execStmts f rest st
        else
          match execStmts f body st with
          | none => none
          | some st' => execStmts f (CStmt.whileNZ body :: rest) st' := rfl

/-- Execution of the emitted program is monotone in fuel. -/
theorem execStmts_mono (f : Nat) :
    ∀ (g : Nat) (prog : List CStmt) (st r : CState),
      execStmts f prog st = some r → f ≤ g → execStmts g prog st = some r := by
  induction f with
  | zero =>
    intro g prog st r h _
    exact absurd h (by simp [execStmts])
  | succ f ih =>
    intro g prog st r h hle
    obtain ⟨g', rfl⟩ : ∃ g', g = g' + 1 := ⟨g - 1, by omega⟩
    have hle' : f ≤ g' := by omega
    match prog with
    | [] => exact h
    | stmt :: rest =>
      match stmt with
      | CStmt.ptrInc => exact ih g' _ _ _ h hle'
      | CStmt.ptrDec => exact ih g' _ _ _ h hle'
      | CStmt.cellInc => exact ih g' _ _ _ h hle'
      | CStmt.cellDec => exact ih g' _ _ _ h hle'
      | CStmt.put => exact ih g' _ _ _ h hle'
      | CStmt.get =>
        rw [execStmts_get_eq] at h
        rw [execStmts_get_eq]
        match hin : st.input with
        | [] =>
          rw [hin] at h
          exact ih g' _ _ _ h hle'
        | b :: bs =>
          rw [hin] at h
          exact ih g' _ _ _ h hle'
      | CStmt.whileNZ body =>
        rw [execStmts_while_eq] at h
        rw [execStmts_while_eq]
        by_cases hz : st.tape st.ptr = 0
        · rw [if_pos hz] at h
          rw [if_pos hz]
          exact ih g' _ _ _ h hle'
        · rw [if_neg hz] at h
          rw [if_neg hz]
          match hbody : execStmts f body st with
          | none =>
            rw [hbody] at h
            cases h
          | some st' =>
            rw [hbody] at h
            rw [ih g' body st st' hbody hle']
            exact ih g' _ _ _ h hle'

/-- `emitTok` produces a loop-open token only for `[`. -/
theorem emitTok_wOpen_inv (c : Char) (h : emitTok c = some CTok.wOpen) : c = '[' := by
  unfold emitTok at h
  split_ifs at h <;> simp_all

/-- `emitTok` produces a loop-close token only for `]`. -/
theorem emitTok_wClose_inv (c : Char) (h : emitTok c = some CTok.wClose) : c = ']' := by
  unfold emitTok at h
  split_ifs at h <;> simp_all

/-- A character with an emitted snippet contributes it to the stream. -/
theorem emitToks_cons_some (c : Char) (cs : List Char) (t : CTok) (h : emitTok c = some t) :
    emitToks (c :: cs) = t :: emitToks cs := by
  unfold emitToks
  rw [List.filterMap_cons, h]

/-- A character without an emitted snippet is skipped. -/
theorem emitToks_cons_none (c : Char) (cs : List Char) (h : emitTok c = none) :
    emitToks (c :: cs) = emitToks cs := by
  unfold emitToks
  rw [List.filterMap_cons, h]

/-- A character with a straight-line statement contributes it. -/
theorem lineStmts_cons_some (c : Char) (cs : List Char) (m : CStmt) (h : lineStmt c = some m) :
    lineStmts (c :: cs) = m :: lineStmts cs := by
  unfold lineStmts
  rw [List.filterMap_cons, h]

/-- A character without a straight-line statement is skipped. -/
theorem lineStmts_cons_none (c : Char) (cs : List Char) (h : lineStmt c = none) :
    lineStmts (c :: cs) = lineStmts cs := by
  unfold lineStmts
  rw [List.filterMap_cons, h]

/-- Parsing the snippet stream emitted for a bracket-free buffer extends
the statements accumulated so far with the straight-line statement list. -/
theorem parseToks_emit_line (s : List Char) :
    ∀ acc : List CStmt, (∀ c ∈ s, c ≠ '[' ∧ c ≠ ']') →
      parseToks (emitToks s) [acc] = some (acc.reverse ++ lineStmts s) := by
  induction s with
  | nil =>
    intro acc _
    simp [emitToks, lineStmts, parseToks]
  | cons c cs ih =>
    intro acc h
    have hc := h c (List.mem_cons_self c cs)
    have hcs : ∀ x ∈ cs, x ≠ '[' ∧ x ≠ ']' := fun x hx => h x (List.mem_cons_of_mem c hx)
    match hemit : emitTok c with
    | none =>
      have hlc : lineStmt c = none := by
        unfold lineStmt
        rw [hemit]
      rw [emitToks_cons_none c cs hemit, lineStmts_cons_none c cs hlc]
      exact ih acc hcs
    | some CTok.wOpen => exact absurd (emitTok_wOpen_inv c hemit) hc.1
    | some CTok.wClose => exact absurd (emitTok_wClose_inv c hemit) hc.2
    | some CTok.ptrInc =>
      have hlc : lineStmt c = some CStmt.ptrInc := by
        unfold lineStmt
        rw [hemit]
      rw [emitToks_cons_some c cs _ hemit, lineStmts_cons_some c cs _ hlc]
      show parseToks (emitToks cs) [CStmt.ptrInc :: acc]
        = some (acc.reverse ++ (CStmt.ptrInc :: lineStmts cs))
      rw [ih (CStmt.ptrInc :: acc) hcs]
      simp
    | some CTok.ptrDec =>
      have hlc : lineStmt c = some CStmt.ptrDec := by
        unfold lineStmt
        rw [hemit]
      rw [emitToks_cons_some c cs _ hemit, lineStmts_cons_some c cs _ hlc]
      show parseToks (emitToks cs) [CStmt.ptrDec :: acc]
        = some (acc.reverse ++ (CStmt.ptrDec :: lineStmts cs))
      rw [ih (CStmt.ptrDec :: acc) hcs]
      simp
    | some CTok.cellInc =>
      have hlc : lineStmt c = some CStmt.cellInc := by
        unfold lineStmt
        rw [hemit]
      rw [emitToks_cons_some c cs _ hemit, lineStmts_cons_some c cs _ hlc]
      show parseToks (emitToks cs) [CStmt.cellInc :: acc]
        = some (acc.reverse ++ (CStmt.cellInc :: lineStmts cs))
      rw [ih (CStmt.cellInc :: acc) hcs]
      simp
    | some CTok.cellDec =>
      have hlc : lineStmt c = some CStmt.cellDec := by
        unfold lineStmt
        rw [hemit]
      rw [emitToks_cons_some c cs _ hemit, lineStmts_cons_some c cs _ hlc]
      show parseToks (emitToks cs) [CStmt.cellDec :: acc]
        = some (acc.reverse ++ (CStmt.cellDec :: lineStmts cs))
      rw [ih (CStmt.cellDec :: acc) hcs]
      simp
    | some CTok.put =>
      have hlc : lineStmt c = some CStmt.put := by
        unfold lineStmt
        rw [hemit]
      rw [emitToks_cons_some c cs _ hemit, lineStmts_cons_some c cs _ hlc]
      show parseToks (emitToks cs) [CStmt.put :: acc]
        = some (acc.reverse ++ (CStmt.put :: lineStmts cs))
      rw [ih (CStmt.put :: acc) hcs]
      simp
    | some CTok.get =>
      have hlc : lineStmt c = some CStmt.get := by
        unfold lineStmt
        rw [hemit]
      rw [emitToks_cons_some c cs _ hemit, lineStmts_cons_some c cs _ hlc]
      show parseToks (emitToks cs) [CStmt.get :: acc]
        = some (acc.reverse ++ (CStmt.get :: lineStmts cs))
      rw [ih (CStmt.get :: acc) hcs]
      simp

/-- A statement produced by `lineStmt` is never a loop. -/
theorem lineStmt_isLine (c : Char) (m : CStmt) (h : lineStmt c = some m) : LineStmt m := by
  unfold lineStmt at h
  rcases he : emitTok c with _ | t
  · rw [he] at h
    cases h
  · rw [he] at h
    cases t <;> (try cases h) <;> trivial

/-- Every statement of the straight-line emission is a non-loop statement. -/
theorem lineStmts_isLine (s : List Char) : ∀ m ∈ lineStmts s, LineStmt m := by
  intro m hm
  rcases List.mem_filterMap.1 hm with ⟨c, _, hc⟩
  exact lineStmt_isLine c m hc

/-- On loop-free statement lists, `execStmts` with fuel one past the list
length runs to completion and computes the straight-line result. -/
theorem execStmts_line (ms : List CStmt) :
    ∀ st : CState, (∀ m ∈ ms, LineStmt m) →
      execStmts (ms.length + 1) ms st = some (runLine ms st) := by
  induction ms with
  | nil =>
    intro st _
    rfl
  | cons m ms ih =>
    intro st h
    have hms : ∀ x ∈ ms, LineStmt x := fun x hx => h x (List.mem_cons_of_mem m hx)
    match m with
    | CStmt.ptrInc => exact ih _ hms
    | CStmt.ptrDec => exact ih _ hms
    | CStmt.cellInc => exact ih _ hms
    | CStmt.cellDec => exact ih _ hms
    | CStmt.put => exact ih _ hms
    | CStmt.get =>
      have hstep : lineStepC CStmt.get st
          = match st.input with
            | [] => { st with tape := updC st.tape st.ptr 255 }
            | b :: bs => { st with tape := updC st.tape st.ptr (b % 256), input := bs } := rfl
      show execStmts (ms.length + 1 + 1) (CStmt.get :: ms) st
        = some (runLine ms (lineStepC CStmt.get st))
      rw [execStmts_get_eq, hstep]
      rcases hin : st.input with _ | ⟨b, bs⟩
      · exact ih _ hms
      · exact ih _ hms
    | CStmt.whileNZ body =>
      exact ((h (CStmt.whileNZ body) (List.mem_cons_self _ _)) : False).elim

/-- On a jump-free suffix, the execution loop from cursor position
`pre.length` computes the straight-line run of that suffix. -/
theorem execBF_lin (cs : List Char) :
    ∀ (pre : List Char) (L : Nat → Option Nat) (st : BFState),
      (∀ x ∈ cs, x ≠ '[' ∧ x ≠ ']') → st.pc = pre.length →
      execBF (cs.length + 1) (pre ++ cs) L st = some (linBF L cs st) := by
  induction cs with
  | nil =>
    intro pre L st _ hpc
    show (if st.pc < (pre ++ ([] : List Char)).length
        then execBF 0 (pre ++ []) L (stepBF (pre ++ []) L st) else some st)
      = some (linBF L [] st)
    rw [if_neg (by simp [hpc])]
    rfl
  | cons c cs ih =>
    intro pre L st h hpc
    have hc := h c (List.mem_cons_self c cs)
    have hcs : ∀ x ∈ cs, x ≠ '[' ∧ x ≠ ']' := fun x hx => h x (List.mem_cons_of_mem c hx)
    have hs : pre ++ c :: cs = (pre ++ [c]) ++ cs := by simp
    have hget : ((pre ++ [c]) ++ cs).get? st.pc = some c := by
      rw [List.get?_eq_getElem?, ← hs, hpc,
        List.getElem?_append_right (le_refl pre.length)]
      simp
    have hlt : st.pc < ((pre ++ [c]) ++ cs).length := by
      rw [← hs, hpc]
      simp
    have hstep := stepBF_eq ((pre ++ [c]) ++ cs) L st c hget
    have hpc' : (stepBF ((pre ++ [c]) ++ cs) L st).pc = (pre ++ [c]).length := by
      rw [hstep]
      show (stepInstr c L st).pc + 1 = (pre ++ [c]).length
      rw [stepInstr_pc_of_not_bracket c L st hc.1 hc.2, hpc]
      simp
    rw [hs]
    show (if st.pc < ((pre ++ [c]) ++ cs).length
        then execBF (cs.length + 1) ((pre ++ [c]) ++ cs) L (stepBF ((pre ++ [c]) ++ cs) L st)
        else some st)
      = some (linBF L (c :: cs) st)
    rw [if_pos hlt, ih (pre ++ [c]) L (stepBF ((pre ++ [c]) ++ cs) L st) hcs hpc', hstep]
    rfl

/-- An instruction that is none of the eight operators leaves the tape,
pointer, input and output untouched. -/
theorem stepInstr_frame (c : Char) (L : Nat → Option Nat) (st : BFState)
    (h1 : c ≠ '+') (h2 : c ≠ '-') (h3 : c ≠ '<') (h4 : c ≠ '>') (h5 : c ≠ ',')
    (h6 : c ≠ '.') (h7 : c ≠ '[') (h8 : c ≠ ']') :
    (stepInstr c L st).tape = st.tape ∧ (stepInstr c L st).ptr = st.ptr ∧
    (stepInstr c L st).input = st.input ∧ (stepInstr c L st).output = st.output := by
  unfold stepInstr
  split_ifs <;> first
    | exact ⟨rfl, rfl, rfl, rfl⟩
    | simp_all

/-- A character that is not an operator emits no statement. -/
theorem lineStmt_none (c : Char)
    (h1 : c ≠ '+') (h2 : c ≠ '-') (h3 : c ≠ '<') (h4 : c ≠ '>') (h5 : c ≠ ',')
    (h6 : c ≠ '.') (h7 : c ≠ '[') (h8 : c ≠ ']') : lineStmt c = none := by
  have he : emitTok c = none := by
    unfold emitTok
    split_ifs <;> simp_all
  unfold lineStmt
  rw [he]

/-- On the bracket-, decrement- and read-free fragment, the straight-line
Tape Machine run and the straight-line emitted-program run preserve the
simulation relation. -/
theorem linBF_runLine_rel (cs : List Char) :
    ∀ (L : Nat → Option Nat) (stB : BFState) (stC : CState),
      (∀ x ∈ cs, x ≠ '[' ∧ x ≠ ']' ∧ x ≠ '-' ∧ x ≠ ',') →
      RelBC stB stC → RelBC (linBF L cs stB) (runLine (lineStmts cs) stC) := by
  induction cs with
  | nil =>
    intro L stB stC _ hrel
    exact hrel
  | cons c cs ih =>
    intro L stB stC h hrel
    obtain ⟨hptr, hin, hout, htape⟩ := hrel
    have hc := h c (List.mem_cons_self c cs)
    have hcs : ∀ x ∈ cs, x ≠ '[' ∧ x ≠ ']' ∧ x ≠ '-' ∧ x ≠ ',' :=
      fun x hx => h x (List.mem_cons_of_mem c hx)
    by_cases hgt : c = '>'
    · subst hgt
      rw [lineStmts_cons_some '>' cs CStmt.ptrInc rfl]
      refine ih L _ _ hcs ⟨?_, ?_, ?_, ?_⟩
      · show stB.ptr + 1 = stC.ptr + 1
        rw [hptr]
      · exact hin
      · exact hout
      · intro p
        exact htape p
    · by_cases hlt : c = '<'
      · subst hlt
        rw [lineStmts_cons_some '<' cs CStmt.ptrDec rfl]
        refine ih L _ _ hcs ⟨?_, ?_, ?_, ?_⟩
        · show stB.ptr - 1 = stC.ptr - 1
          rw [hptr]
        · exact hin
        · exact hout
        · intro p
          exact htape p
      · by_cases hpl : c = '+'
        · subst hpl
          rw [lineStmts_cons_some '+' cs CStmt.cellInc rfl]
          refine ih L _ _ hcs ⟨?_, ?_, ?_, ?_⟩
          · exact hptr
          · exact hin
          · exact hout
          · intro p
            show ((updC stC.tape stC.ptr ((stC.tape stC.ptr + 1) % 256) p : Nat) : Int)
              = updB stB.tape stB.ptr (wrap16 (stB.tape stB.ptr + 1)) p % 256
            unfold updB updC
            rw [← hptr]
            by_cases hp : p = stB.ptr
            · rw [if_pos hp, if_pos hp]
              have hv := htape stB.ptr
              push_cast
              unfold wrap16
              omega
            · rw [if_neg hp, if_neg hp]
              exact htape p
        · by_cases hdot : c = '.'
          · subst hdot
            rw [lineStmts_cons_some '.' cs CStmt.put rfl]
            refine ih L _ _ hcs ⟨?_, ?_, ?_, ?_⟩
            · exact hptr
            · exact hin
            · show stB.output ++ [(stB.tape stB.ptr % 256).toNat]
                = stC.output ++ [stC.tape stC.ptr]
              rw [hout, ← hptr]
              have hv := htape stB.ptr
              have : (stB.tape stB.ptr % 256).toNat = stC.tape stB.ptr := by omega
              rw [this]
            · intro p
              exact htape p
          · have hlc : lineStmt c = none :=
              lineStmt_none c hpl hc.2.2.1 hlt hgt hc.2.2.2 hdot hc.1 hc.2.1
            rw [lineStmts_cons_none c cs hlc]
            have frame :=
              stepInstr_frame c L stB hpl hc.2.2.1 hlt hgt hc.2.2.2 hdot hc.1 hc.2.1
            refine ih L _ _ hcs ⟨?_, ?_, ?_, ?_⟩
            · show (stepInstr c L stB).ptr = stC.ptr
              rw [frame.2.1]
              exact hptr
            · show (stepInstr c L stB).input = stC.input
              rw [frame.2.2.1]
              exact hin
            · show (stepInstr c L stB).output = stC.output
              rw [frame.2.2.2]
              exact hout
            · intro p
              show (stC.tape p : Int) = (stepInstr c L stB).tape p % 256
              rw [frame.1]
              exact htape p

/-- C1 amended: on the fragment without brackets, decrement-cell and
read-input, translation is semantics-preserving: for every such Program
Buffer and every input stream, the emitted program's output equals the
Tape Machine's output with the trailing framing newline removed. (The
unrestricted claim is refuted by `-.`, where the machine's saturating
decrement prints 0 but the emitted wrapping decrement prints 255.) -/
theorem claim1_emitted_equiv_on_loop_free_fragment (s : List Char) (input : List Nat)
    (h : ∀ c ∈ s, c ≠ '[' ∧ c ≠ ']' ∧ c ≠ '-' ∧ c ≠ ',') :
    (runBF s input (s.length + 1)).map (fun st => st.output.dropLast)
      = (runEmitted s input (s.length + 1)).map (fun st => st.output) := by
  have hbr : ∀ x ∈ s, x ≠ '[' ∧ x ≠ ']' := fun x hx => ⟨(h x hx).1, (h x hx).2.1⟩
  have hB := execBF_lin s [] (initLoops s).loops (bfInit input) hbr rfl
  rw [List.nil_append] at hB
  have hparse := parseToks_emit_line s [] hbr
  rw [List.reverse_nil, List.nil_append] at hparse
  have hexec0 :=
    execStmts_line (lineStmts s) ⟨fun _ => 0, 0, input, []⟩ (lineStmts_isLine s)
  have hlenf : (lineStmts s).length ≤ s.length := List.length_filterMap_le lineStmt s
  have hexec := execStmts_mono _ (s.length + 1) _ _ _ hexec0 (by omega)
  have hrel := linBF_runLine_rel s (initLoops s).loops (bfInit input)
    ⟨fun _ => 0, 0, input, []⟩ h ⟨rfl, rfl, rfl, fun p => rfl⟩
  unfold runBF runEmitted
  rw [hB, hparse]
  dsimp only
  rw [hexec]
  simp only [Option.map_some']
  show some ((linBF (initLoops s).loops s (bfInit input)).output ++ [10]).dropLast = _
  rw [List.dropLast_concat]
  exact congrArg some hrel.2.2.1

/-- C1 witness: for the spec's own example `+++.`, the Tape Machine's
output minus the framing newline equals the emitted program's output. -/
theorem claim1_witness :
    (runBF ['+', '+', '+', '.'] [] 5).map (fun st => st.output.dropLast)
      = (runEmitted ['+', '+', '+', '.'] [] 5).map (fun st => st.output) :=
  claim1_emitted_equiv_on_loop_free_fragment ['+', '+', '+', '.'] [] (by decide)

end MiniBf
